import Mathlib

/-!
# Verification of the PM-Analysis maintenance task scheduler

Shallow embedding of `generate_task_schedule` from `pages/5_🤖 PM_Analysis.py`.

Modelling conventions:
* A calendar date is a natural number counting days from a fixed Monday
  epoch, so Python's `date.weekday()` (Monday = 0 … Sunday = 6) becomes
  `d % 7`, and a weekday test `weekday() < 5` becomes `d % 7 < 5`.
* Timestamps are minutes from the epoch midnight: a datetime built as
  `datetime.combine(date, midnight) + timedelta(hours=16) + offset`
  becomes `date * 1440 + 960 + offset`.
* `duration_minutes` values are natural numbers (the spec restricts them
  to non-negative integers).
* The Streamlit warning emitted on capacity exhaustion is modelled as a
  `truncated` flag on the result.
-/

set_option maxRecDepth 20000

namespace PM

/-- A row of the task dataframe, with the columns `generate_task_schedule`
reads (after its column renaming `System`, `Interval_months`,
`Duration_mins`, `Task_Description`, `Page_Number`). -/
structure Task where
  system : String
  interval_months : Nat
  duration_mins : Nat
  task_description : String
  page_number : String
deriving Repr, DecidableEq

/-- A row of the schedule dataframe returned by `generate_task_schedule`
(the dict appended to `schedule`). -/
structure ScheduledTask where
  date : Nat
  task : String
  start : Nat
  finish : Nat
  system : String
  duration_mins : Nat
  page_number : String
deriving Repr, DecidableEq

/-- Result of `generate_task_schedule`: the schedule rows plus the
truncation signal (`st.warning` + early return in the source). -/
structure ScheduleResult where
  schedule : List ScheduledTask
  truncated : Bool
deriving Repr, DecidableEq

/-- `daily_work_minutes = 300` from the source. -/
def daily_work_minutes : Nat := 300

/-- `df['Duration (mins)'].sum()`. -/
def total_work_minutes (tasks : List Task) : Nat :=
  (tasks.map Task.duration_mins).sum

/-- Python's string comparison: lexicographic on the code-point
sequences.  (Executable by structural recursion, unlike `String.ltb`.) -/
def chars_lt : List Char → List Char → Bool
  | [], [] => false
  | [], _ :: _ => true
  | _ :: _, [] => false
  | a :: as, b :: bs =>
      if a < b then true else if b < a then false else chars_lt as bs

/-- `s₁ < s₂` for Python strings. -/
def str_lt (a b : String) : Prop := chars_lt a.data b.data = true

instance : DecidableRel str_lt := fun a b => by
  unfold str_lt; infer_instance

/-- The three-key comparison implemented by
`df.sort_values(by=['System', 'Interval (months)', 'Duration (mins)'],
ascending=[True, True, False])`: system ascending (lexicographic by code
point, as Python compares strings), interval ascending, duration
descending. -/
def task_le (a b : Task) : Prop :=
  str_lt a.system b.system ∨
    (a.system = b.system ∧
      (a.interval_months < b.interval_months ∨
        (a.interval_months = b.interval_months ∧ b.duration_mins ≤ a.duration_mins)))

instance : DecidableRel task_le := fun a b => by
  unfold task_le; infer_instance

/-- `schedule_df = df.sort_values(...)`: pandas' multi-key sort is stable,
as is `List.insertionSort`. -/
def sort_tasks (tasks : List Task) : List Task :=
  tasks.insertionSort task_le

/-- `num_workdays_needed = int(np.ceil(total_work_minutes / daily_work_minutes))`. -/
def num_workdays_needed (tasks : List Task) : Nat :=
  (total_work_minutes tasks + (daily_work_minutes - 1)) / daily_work_minutes

/-- The candidate-day loop:
`for i in range(90): if len(acc) >= 60: break;`
`if (start_date + i).weekday() < 5: acc.append(start_date + i)`.
(A `break` and skipping every later iteration give the same list, so the
loop is folded over all of `range 90`.) -/
def all_available_weekdays (start_date : Nat) : List Nat :=
  (List.range 90).foldl
    (fun acc i =>
      if acc.length ≥ 60 then acc
      else if (start_date + i) % 7 < 5 then acc ++ [start_date + i] else acc)
    []

/-- `np.linspace(0, len - 1, n, dtype=int)`: `n` evenly spaced points from
`0` to `len - 1`, truncated to integers.  For every reachable call the
float computation is exact enough that truncation agrees with exact
rational floor, i.e. `i * (len - 1) / (n - 1)` in `Nat` division (for
`n = 1` numpy returns `[0.0]`, and `Nat` division by `0` gives the same). -/
def linspace_int (len n : Nat) : List Nat :=
  (List.range n).map fun i => i * (len - 1) / (n - 1)

/-- The `scheduled_dates` selection:
`if num_workdays_needed > 0 and len(all_available_weekdays) > 0:`
`  days_to_pick = min(num_workdays_needed, len(all_available_weekdays))`
`  indices = np.linspace(0, len - 1, days_to_pick, dtype=int)`
`  scheduled_dates = [all_available_weekdays[i] for i in indices]`
`else: scheduled_dates = []`. -/
def scheduled_dates (tasks : List Task) (start_date : Nat) : List Nat :=
  let cand := all_available_weekdays start_date
  if num_workdays_needed tasks > 0 ∧ 0 < cand.length then
    (linspace_int cand.length (min (num_workdays_needed tasks) cand.length)).map
      fun idx => cand.getD idx 0
  else []

/-- The `while duration > time_available_today:` loop: advance through the
remaining scheduled dates (resetting the day's capacity) until the task
fits; `none` models the `StopIteration` branch. -/
def advance_to_fitting_day (duration : Nat) :
    List Nat → Nat → Nat → Option (Nat × Nat × List Nat)
  | [], current, avail =>
      if duration ≤ avail then some (current, avail, []) else none
  | d :: ds, current, avail =>
      if duration ≤ avail then some (current, avail, d :: ds)
      else advance_to_fitting_day duration ds d daily_work_minutes

/-- The schedule row appended for task `t` on day `d` when
`time_available_today = avail2`:
`start_offset = daily_work_minutes - avail2`;
`task_start_time = midnight(d) + 16h + start_offset`;
`task_end_time = task_start_time + duration`. -/
def mk_row (t : Task) (d avail2 : Nat) : ScheduledTask :=
  ⟨d, t.task_description, d * 1440 + 960 + (daily_work_minutes - avail2),
    d * 1440 + 960 + (daily_work_minutes - avail2) + t.duration_mins,
    t.system, t.duration_mins, t.page_number⟩

@[simp] lemma mk_row_date (t : Task) (d avail2 : Nat) : (mk_row t d avail2).date = d := rfl

@[simp] lemma mk_row_duration (t : Task) (d avail2 : Nat) :
    (mk_row t d avail2).duration_mins = t.duration_mins := rfl

@[simp] lemma mk_row_start (t : Task) (d avail2 : Nat) :
    (mk_row t d avail2).start = d * 1440 + 960 + (daily_work_minutes - avail2) := rfl

@[simp] lemma mk_row_finish (t : Task) (d avail2 : Nat) :
    (mk_row t d avail2).finish =
      d * 1440 + 960 + (daily_work_minutes - avail2) + t.duration_mins := rfl

/-- The `for task in tasks_to_schedule:` loop.  State: current scheduled
date, `time_available_today`, and the unconsumed tail of the date
iterator.  Returns the appended schedule rows plus the truncation flag. -/
def schedule_loop : List Task → Nat → Nat → List Nat → List ScheduledTask × Bool
  | [], _, _, _ => ([], false)
  | t :: ts, current, avail, rest =>
    if t.duration_mins = 0 then schedule_loop ts current avail rest
    else
      match advance_to_fitting_day t.duration_mins rest current avail with
      | none => ([], true)
      | some (d, avail2, rest2) =>
        let res := schedule_loop ts d (avail2 - t.duration_mins) rest2
        (mk_row t d avail2 :: res.1, res.2)

/-- `generate_task_schedule(df, start_date)` from
`pages/5_🤖 PM_Analysis.py`. -/
def generate_task_schedule (tasks : List Task) (start_date : Nat) : ScheduleResult :=
  if tasks = [] ∨ total_work_minutes tasks = 0 then ⟨[], false⟩
  else
    match scheduled_dates tasks start_date with
    | [] => ⟨[], false⟩
    | d :: ds =>
      let res := schedule_loop (sort_tasks tasks) d daily_work_minutes ds
      ⟨res.1, res.2⟩

/-- Total minutes already placed on date `d` in a schedule list. -/
def duration_on_date (d : Nat) (sched : List ScheduledTask) : Nat :=
  ((sched.filter fun a => a.date == d).map ScheduledTask.duration_mins).sum

section SanityChecks

example : all_available_weekdays 0 = (List.range 90).foldl
    (fun acc i =>
      if acc.length ≥ 60 then acc
      else if (0 + i) % 7 < 5 then acc ++ [0 + i] else acc) [] := rfl

example : (all_available_weekdays 0).length = 60 := by decide

example : (all_available_weekdays 0).getD 59 0 = 81 := by decide

example : linspace_int 60 3 = [0, 29, 59] := by decide

example : linspace_int 60 2 = [0, 59] := by decide

example : linspace_int 60 1 = [0] := by decide

end SanityChecks

/-! ## Generic list helpers -/

/-- A strictly increasing list of naturals is a sublist of any strictly
increasing list containing its elements. -/
lemma sublist_of_pairwise_lt_subset :
    ∀ {l₂ l₁ : List Nat}, l₁.Pairwise (· < ·) → l₂.Pairwise (· < ·) →
      (∀ x ∈ l₁, x ∈ l₂) → List.Sublist l₁ l₂ := by
  intro l₂
  induction l₂ with
  | nil =>
    intro l₁ _ _ hsub
    rw [List.eq_nil_iff_forall_not_mem.mpr fun a ha => List.not_mem_nil a (hsub a ha)]
  | cons b t₂ ih =>
    intro l₁ h₁ h₂ hsub
    rcases l₁ with _ | ⟨a, t₁⟩
    · exact List.nil_sublist _
    · rcases List.pairwise_cons.mp h₁ with ⟨ha₁, ht₁⟩
      rcases List.pairwise_cons.mp h₂ with ⟨hb₂, ht₂⟩
      by_cases hab : a = b
      · subst hab
        refine List.Sublist.cons₂ a (ih ht₁ ht₂ ?_)
        intro x hx
        rcases List.mem_cons.mp (hsub x (List.mem_cons_of_mem a hx)) with h | h
        · exact absurd h (Nat.ne_of_gt (ha₁ x hx))
        · exact h
      · have haim : a ∈ t₂ := (List.mem_cons.mp (hsub a (List.mem_cons_self a t₁))).resolve_left hab
        refine List.Sublist.cons b (ih h₁ ht₂ ?_)
        intro x hx
        rcases List.mem_cons.mp (hsub x hx) with h | h
        · exfalso
          have hba : b < a := hb₂ a haim
          rcases List.mem_cons.mp hx with rfl | hx'
          · exact hab h
          · have := ha₁ x hx'
            omega
        · exact h

/-- Sums of `Nat` lists are monotone along sublists. -/
lemma sum_le_sum_of_sublist {l₁ l₂ : List Nat} (h : List.Sublist l₁ l₂) :
    l₁.sum ≤ l₂.sum := by
  induction h with
  | slnil => exact Nat.le_refl _
  | cons a _ ih => simpa using Nat.le_trans ih (Nat.le_add_left _ _)
  | cons₂ a _ ih => simpa using ih

/-! ## Calendar window builder -/

/-- The candidate-day loop folded over `range k` equals: keep the weekday
offsets among `0 .. k-1`, truncate to the first 60, shift by the start
date. -/
lemma weekday_foldl_eq (s k : Nat) :
    (List.range k).foldl
      (fun acc i =>
        if acc.length ≥ 60 then acc
        else if (s + i) % 7 < 5 then acc ++ [s + i] else acc)
      [] =
    (((List.range k).filter fun i => decide ((s + i) % 7 < 5)).take 60).map (s + ·) := by
  induction k with
  | zero => rfl
  | succ k ih =>
    rw [List.range_succ, List.foldl_append, List.filter_append, ih]
    set l := (List.range k).filter fun i => decide ((s + i) % 7 < 5) with hl
    simp only [List.foldl_cons, List.foldl_nil, List.filter_cons, List.filter_nil]
    rcases le_or_lt 60 l.length with h60 | h60
    · have hlen : ((l.take 60).map (s + ·)).length = 60 := by
        simp [List.length_take, Nat.min_eq_left h60]
      rw [if_pos (by rw [hlen])]
      rcases h : decide ((s + k) % 7 < 5) with _ | _
      · simp
      · rw [if_pos rfl, List.take_append_of_le_length h60]
    · have hlen : ((l.take 60).map (s + ·)).length = l.length := by
        simp [List.length_take, Nat.min_eq_right h60.le]
      rw [if_neg (by rw [hlen]; omega)]
      rcases h : decide ((s + k) % 7 < 5) with _ | _
      · rw [if_neg (of_decide_eq_false h)]
        simp
      · rw [if_pos (of_decide_eq_true h), if_pos rfl]
        rw [List.take_of_length_le h60.le,
          List.take_of_length_le (by simp [List.length_append]; omega),
          List.map_append]
        rfl

/-- Characterization of `all_available_weekdays`. -/
lemma all_available_weekdays_eq (s : Nat) :
    all_available_weekdays s =
    (((List.range 90).filter fun i => decide ((s + i) % 7 < 5)).take 60).map (s + ·) :=
  weekday_foldl_eq s 90

/-- Any 90 consecutive calendar days contain at least 60 weekdays. -/
lemma sixty_le_weekday_count (s : Nat) :
    60 ≤ ((List.range 90).filter fun i => decide ((s + i) % 7 < 5)).length := by
  have hc : ∀ i ∈ List.range 90,
      (decide ((s + i) % 7 < 5)) = (decide ((s % 7 + i) % 7 < 5)) := by
    intro i _
    apply decide_eq_decide.mpr
    omega
  rw [List.filter_congr hc]
  have h7 : s % 7 < 7 := Nat.mod_lt _ (by omega)
  set r := s % 7 with hr
  interval_cases r <;> decide

/-- The candidate list always has exactly 60 entries. -/
lemma length_all_available_weekdays (s : Nat) :
    (all_available_weekdays s).length = 60 := by
  rw [all_available_weekdays_eq]
  simp [List.length_take, Nat.min_eq_left (sixty_le_weekday_count s)]

/-- The candidate list is strictly increasing. -/
lemma pairwise_all_available_weekdays (s : Nat) :
    (all_available_weekdays s).Pairwise (· < ·) := by
  rw [all_available_weekdays_eq]
  rw [List.pairwise_map]
  have hr : (List.range 90).Pairwise (· < ·) := List.sorted_lt_range 90
  have hsub : List.Sublist
      (((List.range 90).filter fun i => decide ((s + i) % 7 < 5)).take 60)
      (List.range 90) :=
    (List.take_sublist _ _).trans (List.filter_sublist _)
  exact (hr.sublist hsub).imp fun h => by omega

/-- Starting on a Saturday, the first candidate day is the following
Monday. -/
lemma head_all_available_weekdays_sat (s : Nat) (hs : s % 7 = 5) :
    (all_available_weekdays s).head? = some (s + 2) := by
  rw [all_available_weekdays_eq]
  have hc : ∀ i ∈ List.range 90,
      (decide ((s + i) % 7 < 5)) = (decide ((5 + i) % 7 < 5)) := by
    intro i _
    apply decide_eq_decide.mpr
    omega
  rw [List.filter_congr hc]
  have h2 : ((List.range 90).filter fun i => decide ((5 + i) % 7 < 5)).head? = some 2 := by
    decide
  obtain ⟨l', hl'⟩ : ∃ l',
      (List.range 90).filter (fun i => decide ((5 + i) % 7 < 5)) = 2 :: l' := by
    rcases h : (List.range 90).filter (fun i => decide ((5 + i) % 7 < 5)) with _ | ⟨a, t⟩
    · rw [h] at h2
      simp at h2
    · rw [h] at h2
      simp at h2
      exact ⟨t, by rw [h2]⟩
  rw [hl']
  rw [show (60 : Nat) = 59 + 1 from rfl, List.take_succ_cons, List.map_cons,
    List.head?_cons]

/-- Every candidate day is a weekday at or after the start date. -/
lemma mem_all_available_weekdays (s d : Nat) (hd : d ∈ all_available_weekdays s) :
    s ≤ d ∧ d % 7 < 5 := by
  rw [all_available_weekdays_eq] at hd
  obtain ⟨i, hi, rfl⟩ := List.mem_map.mp hd
  have hi' := (List.take_sublist _ _).subset hi
  have := List.of_mem_filter hi'
  exact ⟨Nat.le_add_right _ _, of_decide_eq_true this⟩

/-! ## Evenly spaced index selection -/

lemma length_linspace_int (len n : Nat) : (linspace_int len n).length = n := by
  simp [linspace_int]

/-- Every selected index is within the candidate range. -/
lemma mem_linspace_int_le {len n i : Nat} (h : i ∈ linspace_int len n) : i ≤ len - 1 := by
  unfold linspace_int at h
  obtain ⟨j, hj, rfl⟩ := List.mem_map.mp h
  have hj' : j < n := List.mem_range.mp hj
  by_cases h1 : n = 1
  · subst h1
    interval_cases j
    simp
  · have h2 : 0 < n - 1 := by omega
    calc j * (len - 1) / (n - 1) ≤ (n - 1) * (len - 1) / (n - 1) :=
          Nat.div_le_div_right (Nat.mul_le_mul_right _ (by omega))
      _ = len - 1 := Nat.mul_div_cancel_left _ h2

/-- The selected indices are strictly increasing when `n ≤ len`. -/
lemma pairwise_linspace_int {len n : Nat} (h : n ≤ len) :
    (linspace_int len n).Pairwise (· < ·) := by
  unfold linspace_int
  rw [List.pairwise_map]
  rcases Nat.lt_or_ge n 2 with h2 | h2
  · rw [List.pairwise_iff_get]
    intro i j hij
    have hj := j.isLt
    simp only [List.length_range] at hj
    omega
  · have hn1 : 0 < n - 1 := by omega
    refine (List.sorted_lt_range n).imp_of_mem ?_
    intro a b _ _ hab
    have hstep : a * (len - 1) + (n - 1) ≤ b * (len - 1) := by
      have : (a + 1) * (len - 1) ≤ b * (len - 1) :=
        Nat.mul_le_mul_right _ (by omega)
      have hl : n - 1 ≤ len - 1 := by omega
      nlinarith
    calc a * (len - 1) / (n - 1) < a * (len - 1) / (n - 1) + 1 := Nat.lt_succ_self _
      _ = (a * (len - 1) + (n - 1)) / (n - 1) := (Nat.add_div_right _ hn1).symm
      _ ≤ b * (len - 1) / (n - 1) := Nat.div_le_div_right hstep

/-- Selecting as many indices as there are candidates selects every index. -/
lemma linspace_int_self {len : Nat} : linspace_int len len = List.range len := by
  unfold linspace_int
  have hc : ∀ i ∈ List.range len, i * (len - 1) / (len - 1) = i := by
    intro i hi
    have hi' : i < len := List.mem_range.mp hi
    by_cases h1 : len = 1
    · subst h1
      interval_cases i
      simp
    · exact Nat.mul_div_cancel _ (by omega)
  rw [List.map_congr_left hc]
  simp

lemma linspace_int_one (len : Nat) : linspace_int len 1 = [0] := by
  simp [linspace_int]

/-! ## Scheduled-date selection -/

/-- Unfolding of `scheduled_dates` when some work is needed: the candidate
list always has 60 entries, so the guard passes. -/
lemma scheduled_dates_eq (tasks : List Task) (s : Nat)
    (h : 0 < num_workdays_needed tasks) :
    scheduled_dates tasks s =
      (linspace_int 60 (min (num_workdays_needed tasks) 60)).map
        (fun idx => (all_available_weekdays s).getD idx 0) := by
  unfold scheduled_dates
  simp only [length_all_available_weekdays]
  rw [if_pos ⟨h, by omega⟩]

lemma length_scheduled_dates (tasks : List Task) (s : Nat)
    (h : 0 < num_workdays_needed tasks) :
    (scheduled_dates tasks s).length = min (num_workdays_needed tasks) 60 := by
  rw [scheduled_dates_eq tasks s h, List.length_map, length_linspace_int]

/-- Each selected date is one of the candidate days. -/
lemma mem_scheduled_dates {tasks : List Task} {s d : Nat}
    (hd : d ∈ scheduled_dates tasks s) : d ∈ all_available_weekdays s := by
  unfold scheduled_dates at hd
  by_cases hg : num_workdays_needed tasks > 0 ∧ 0 < (all_available_weekdays s).length
  · rw [if_pos hg] at hd
    obtain ⟨idx, hidx, rfl⟩ := List.mem_map.mp hd
    have hb : idx < (all_available_weekdays s).length := by
      have h60 := length_all_available_weekdays s
      have := mem_linspace_int_le hidx
      omega
    rw [List.getD_eq_get _ _ hb]
    exact List.get_mem _ _ _
  · rw [if_neg hg] at hd
    exact absurd hd (List.not_mem_nil d)

/-- The selected dates are strictly increasing. -/
lemma pairwise_scheduled_dates (tasks : List Task) (s : Nat) :
    (scheduled_dates tasks s).Pairwise (· < ·) := by
  unfold scheduled_dates
  by_cases hg : num_workdays_needed tasks > 0 ∧ 0 < (all_available_weekdays s).length
  · rw [if_pos hg]
    rw [List.pairwise_map]
    have hlin : (linspace_int (all_available_weekdays s).length
        (min (num_workdays_needed tasks) (all_available_weekdays s).length)).Pairwise
        (· < ·) :=
      pairwise_linspace_int (Nat.min_le_right _ _)
    refine hlin.imp_of_mem ?_
    intro a b ha hb hab
    have hal : a < (all_available_weekdays s).length := by
      have := mem_linspace_int_le ha
      have hpos := hg.2
      omega
    have hbl : b < (all_available_weekdays s).length := by
      have := mem_linspace_int_le hb
      have hpos := hg.2
      omega
    rw [List.getD_eq_get _ _ hal, List.getD_eq_get _ _ hbl]
    exact List.pairwise_iff_get.mp (pairwise_all_available_weekdays s) ⟨a, hal⟩ ⟨b, hbl⟩ hab
  · rw [if_neg hg]
    exact List.Pairwise.nil

/-- The selected dates form a sublist (subsequence) of the candidate list. -/
lemma sublist_scheduled_dates (tasks : List Task) (s : Nat) :
    List.Sublist (scheduled_dates tasks s) (all_available_weekdays s) :=
  sublist_of_pairwise_lt_subset (pairwise_scheduled_dates tasks s)
    (pairwise_all_available_weekdays s) (fun _ hx => mem_scheduled_dates hx)

/-- With positive total work, the selection is nonempty. -/
lemma scheduled_dates_ne_nil {tasks : List Task} (s : Nat)
    (h : total_work_minutes tasks ≠ 0) : scheduled_dates tasks s ≠ [] := by
  have hn : 0 < num_workdays_needed tasks := by
    unfold num_workdays_needed daily_work_minutes
    omega
  have := length_scheduled_dates tasks s hn
  intro hnil
  rw [hnil] at this
  simp at this
  omega

/-! ## The placement loop -/

/-- What the `while` loop guarantees on success: the task fits in the
returned day, and the state either did not move or moved to a fresh day
(full capacity) whose tail of the iterator is a suffix of the old one. -/
lemma advance_spec {duration : Nat} :
    ∀ {rest : List Nat} {current avail d a2 : Nat} {r2 : List Nat},
      advance_to_fitting_day duration rest current avail = some (d, a2, r2) →
      duration ≤ a2 ∧
        ((d = current ∧ a2 = avail ∧ r2 = rest) ∨
          (a2 = daily_work_minutes ∧ (d :: r2) <:+ rest)) := by
  intro rest
  induction rest with
  | nil =>
    intro current avail d a2 r2 h
    simp only [advance_to_fitting_day] at h
    split at h
    · injection h with h'
      injection h' with h1 h'
      injection h' with h2 h3
      subst h1; subst h2; subst h3
      exact ⟨by assumption, Or.inl ⟨rfl, rfl, rfl⟩⟩
    · exact absurd h (by simp)
  | cons x xs ih =>
    intro current avail d a2 r2 h
    simp only [advance_to_fitting_day] at h
    split at h
    · injection h with h'
      injection h' with h1 h'
      injection h' with h2 h3
      subst h1; subst h2; subst h3
      exact ⟨by assumption, Or.inl ⟨rfl, rfl, rfl⟩⟩
    · rcases ih h with ⟨hfit, hcase | hcase⟩
      · rcases hcase with ⟨h1, h2, h3⟩
        subst h1; subst h3
        exact ⟨hfit, Or.inr ⟨h2, List.suffix_refl _⟩⟩
      · exact ⟨hfit, Or.inr ⟨hcase.1, hcase.2.trans (List.suffix_cons x xs)⟩⟩

/-- A task longer than the daily capacity never fits: the `while` loop
always exhausts the date iterator. -/
lemma advance_none {duration : Nat} (hdur : daily_work_minutes < duration) :
    ∀ {rest : List Nat} {current avail : Nat}, avail ≤ daily_work_minutes →
      advance_to_fitting_day duration rest current avail = none := by
  intro rest
  induction rest with
  | nil =>
    intro current avail havail
    simp only [advance_to_fitting_day]
    rw [if_neg (by omega)]
  | cons x xs ih =>
    intro current avail havail
    simp only [advance_to_fitting_day]
    rw [if_neg (by omega)]
    exact ih (Nat.le_refl _)

@[simp] lemma duration_on_date_nil (d : Nat) : duration_on_date d [] = 0 := rfl

lemma duration_on_date_cons (d : Nat) (e : ScheduledTask) (A : List ScheduledTask) :
    duration_on_date d (e :: A) =
      (if e.date = d then e.duration_mins else 0) + duration_on_date d A := by
  unfold duration_on_date
  by_cases h : e.date = d
  · rw [List.filter_cons_of_pos (by simpa using h), List.map_cons, List.sum_cons, if_pos h]
  · rw [List.filter_cons_of_neg (by simpa using h), if_neg h, Nat.zero_add]

lemma duration_on_date_eq_zero {d : Nat} {A : List ScheduledTask}
    (h : ∀ a ∈ A, a.date ≠ d) : duration_on_date d A = 0 := by
  induction A with
  | nil => rfl
  | cons e A ih =>
    rw [duration_on_date_cons, if_neg (h e (List.mem_cons_self e A)),
      ih fun a ha => h a (List.mem_cons_of_mem e ha), Nat.zero_add]

/-- The data a schedule row copies verbatim from its task. -/
def sched_proj (a : ScheduledTask) : String × String × Nat × String :=
  (a.system, a.task, a.duration_mins, a.page_number)

def task_proj (t : Task) : String × String × Nat × String :=
  (t.system, t.task_description, t.duration_mins, t.page_number)

/-- The placement loop emits rows for a prefix of the non-zero-duration
tasks, in order, and for all of them exactly when it does not truncate. -/
lemma schedule_loop_proj :
    ∀ (ts : List Task) (current avail : Nat) (rest : List Nat),
      ((schedule_loop ts current avail rest).1.map sched_proj) <+:
          ((ts.filter fun t => t.duration_mins != 0).map task_proj) ∧
        ((schedule_loop ts current avail rest).2 = false →
          (schedule_loop ts current avail rest).1.map sched_proj =
            (ts.filter fun t => t.duration_mins != 0).map task_proj) := by
  intro ts
  induction ts with
  | nil =>
    intro current avail rest
    exact ⟨ List.nil_prefix, fun _ => rfl⟩
  | cons t ts ih =>
    intro current avail rest
    by_cases hz : t.duration_mins = 0
    · rw [List.filter_cons_of_neg (by simpa using hz)]
      simpa only [schedule_loop, if_pos hz] using ih current avail rest
    · rw [List.filter_cons_of_pos (by simpa using hz)]
      simp only [schedule_loop, if_neg hz]
      rcases hadv : advance_to_fitting_day t.duration_mins rest current avail with
        _ | ⟨d0, a2, r2⟩
      · exact ⟨ List.nil_prefix, fun h => absurd h (by simp)⟩
      · rcases ih d0 (a2 - t.duration_mins) r2 with ⟨⟨u, hu⟩, heq⟩
        constructor
        · exact ⟨u, by rw [List.map_cons, List.map_cons, List.cons_append, hu]; rfl⟩
        · intro h
          rw [List.map_cons, List.map_cons, heq h]
          rfl

/-- The main invariant of the placement loop.  Starting from a day with
`avail ≤ 300` minutes left and a strictly increasing list of further
days, every emitted row: lands on one of those days; has
`finish = start + duration` and a positive duration; dates never exceed
the per-day capacity (`avail` for the current, partially used day); and
each row starts at 16:00 of its day plus the minutes already consumed on
that day (the externally consumed `300 - avail` for the current day plus
the durations of earlier same-day rows). -/
lemma schedule_loop_spec :
    ∀ (ts : List Task) (current avail : Nat) (rest : List Nat)
      (A : List ScheduledTask) (tr : Bool),
      schedule_loop ts current avail rest = (A, tr) →
      avail ≤ daily_work_minutes → (current :: rest).Pairwise (· < ·) →
      (∀ a ∈ A, a.date ∈ current :: rest) ∧
      (∀ a ∈ A, a.finish = a.start + a.duration_mins ∧ 0 < a.duration_mins) ∧
      (∀ d, duration_on_date d A ≤ if d = current then avail else daily_work_minutes) ∧
      (∀ i (hi : i < A.length),
        (A.get ⟨i, hi⟩).start = (A.get ⟨i, hi⟩).date * 1440 + 960 +
          ((if (A.get ⟨i, hi⟩).date = current then daily_work_minutes - avail else 0) +
            duration_on_date ((A.get ⟨i, hi⟩)).date (A.take i))) := by
  intro ts
  induction ts with
  | nil =>
    intro current avail rest A tr heq havail hsort
    injection heq with hA htr
    subst hA
    refine ⟨fun a ha => absurd ha (List.not_mem_nil a),
      fun a ha => absurd ha (List.not_mem_nil a), fun d => ?_,
      fun i hi => absurd hi (by simp)⟩
    rw [duration_on_date_nil]
    split <;> omega
  | cons t ts ih =>
    intro current avail rest A tr heq havail hsort
    by_cases hz : t.duration_mins = 0
    · simp only [schedule_loop] at heq
      rw [if_pos hz] at heq
      exact ih current avail rest A tr heq havail hsort
    · simp only [schedule_loop] at heq
      rw [if_neg hz] at heq
      rcases hadv : advance_to_fitting_day t.duration_mins rest current avail with
        _ | ⟨d0, a2, r2⟩
      · rw [hadv] at heq
        dsimp only at heq
        injection heq with hA htr
        subst hA
        refine ⟨fun a ha => absurd ha (List.not_mem_nil a),
          fun a ha => absurd ha (List.not_mem_nil a), fun d => ?_,
          fun i hi => absurd hi (by simp)⟩
        rw [duration_on_date_nil]
        split <;> omega
      · rw [hadv] at heq
        dsimp only at heq
        rcases hres : schedule_loop ts d0 (a2 - t.duration_mins) r2 with ⟨A', tr'⟩
        rw [hres] at heq
        dsimp only at heq
        injection heq with hA htr
        rcases advance_spec hadv with ⟨hfit, hcase⟩
        have ha2 : a2 ≤ daily_work_minutes := by
          rcases hcase with ⟨_, h2, _⟩ | ⟨h2, _⟩
          · omega
          · omega
        have hsort' : (d0 :: r2).Pairwise (· < ·) := by
          rcases hcase with ⟨h1, h2, h3⟩ | ⟨h2, h3⟩
          · subst h1; subst h3
            exact hsort
          · exact hsort.of_cons.sublist h3.sublist
        have hd0mem : d0 ∈ current :: rest := by
          rcases hcase with ⟨h1, _, _⟩ | ⟨_, h3⟩
          · exact h1 ▸ List.mem_cons_self _ _
          · exact List.mem_cons_of_mem _
              (h3.sublist.subset (List.mem_cons_self d0 r2))
        have hcur_lt : ∀ x ∈ rest, current < x :=
          fun x hx => List.rel_of_pairwise_cons hsort hx
        have hsubset : ∀ x ∈ d0 :: r2, x ∈ current :: rest := by
          rcases hcase with ⟨h1, _, h3⟩ | ⟨_, h3⟩
          · subst h1; subst h3
            exact fun x hx => hx
          · exact fun x hx => List.mem_cons_of_mem _ (h3.sublist.subset hx)
        rcases ih d0 (a2 - t.duration_mins) r2 A' tr' hres (by omega) hsort' with
          ⟨ih1, ih2, ih3, ih4⟩
        have hA'necur : d0 ≠ current → ∀ a ∈ A', a.date ≠ current := by
          intro hne a ha hac
          have hmem : a.date ∈ d0 :: r2 := ih1 a ha
          rcases hcase with ⟨h1, _, _⟩ | ⟨_, h3'⟩
          · exact hne h1
          · have hmem' : a.date ∈ rest := h3'.sublist.subset hmem
            have := hcur_lt a.date hmem'
            omega
        subst hA
        refine ⟨?_, ?_, ?_, ?_⟩
        · intro a ha
          rcases List.mem_cons.mp ha with rfl | ha'
          · simpa using hd0mem
          · exact hsubset _ (ih1 a ha')
        · intro a ha
          rcases List.mem_cons.mp ha with rfl | ha'
          · refine ⟨rfl, ?_⟩
            rw [mk_row_duration]
            omega
          · exact ih2 a ha'
        · intro d
          rw [duration_on_date_cons, mk_row_date, mk_row_duration]
          have h3 := ih3 d
          by_cases hd : d = d0
          · rw [if_pos hd.symm]
            rw [if_pos hd] at h3
            rcases hcase with ⟨h1, h2, _⟩ | ⟨h2, h3'⟩
            · rw [if_pos (hd.trans h1)]
              omega
            · have hne : d ≠ current := by
                intro hdc
                have := hcur_lt d0 (h3'.sublist.subset (List.mem_cons_self d0 r2))
                omega
              rw [if_neg hne]
              omega
          · rw [if_neg fun h => hd h.symm]
            rw [if_neg hd] at h3
            by_cases hdc : d = current
            · rw [if_pos hdc]
              have hd0ne : d0 ≠ current := fun h => hd (hdc.trans h.symm)
              have hzero : duration_on_date d A' = 0 := by
                apply duration_on_date_eq_zero
                intro a ha hadate
                exact hA'necur hd0ne a ha (hadate.trans hdc)
              rw [hzero]
              omega
            · rw [if_neg hdc]
              omega
        · intro i hi
          cases i with
          | zero =>
            have hget : ((mk_row t d0 a2 :: A').get ⟨0, hi⟩) = mk_row t d0 a2 := rfl
            rw [hget, List.take_zero, duration_on_date_nil,
              mk_row_start, mk_row_date]
            rcases hcase with ⟨h1, h2, _⟩ | ⟨h2, h3'⟩
            · rw [if_pos h1, h2]
              omega
            · have hne : d0 ≠ current := by
                intro hdc
                have := hcur_lt d0 (h3'.sublist.subset (List.mem_cons_self d0 r2))
                omega
              rw [if_neg hne, h2]
              omega
          | succ j =>
            have hj : j < A'.length := by
              simpa using hi
            have h4 := ih4 j hj
            have hget : ((mk_row t d0 a2 :: A').get ⟨j + 1, hi⟩) = A'.get ⟨j, hj⟩ := rfl
            rw [hget, List.take_succ_cons, duration_on_date_cons,
              mk_row_date, mk_row_duration]
            rw [h4]
            have hDmem := ih1 _ (A'.get_mem j hj)
            set D := (A'.get ⟨j, hj⟩).date with hD
            have harith :
                (if D = current then daily_work_minutes - avail else 0) +
                  ((if d0 = D then t.duration_mins else 0) +
                    duration_on_date D (A'.take j)) =
                (if D = d0 then daily_work_minutes - (a2 - t.duration_mins) else 0) +
                  duration_on_date D (A'.take j) := by
              by_cases hDd0 : D = d0
              · rw [if_pos hDd0, if_pos hDd0.symm]
                rcases hcase with ⟨h1, h2, _⟩ | ⟨h2, h3'⟩
                · rw [if_pos (hDd0.trans h1)]
                  omega
                · have hne : D ≠ current := by
                    intro hdc
                    have := hcur_lt d0 (h3'.sublist.subset (List.mem_cons_self d0 r2))
                    omega
                  rw [if_neg hne]
                  omega
              · rw [if_neg hDd0, if_neg (fun h : d0 = D => hDd0 h.symm)]
                have hne : D ≠ current := by
                  rcases List.mem_cons.mp hDmem with h | h
                  · exact absurd h hDd0
                  · rcases hcase with ⟨h1, _, h3⟩ | ⟨_, h3'⟩
                    · intro hdc
                      have := hcur_lt D (h3 ▸ h)
                      omega
                    · intro hdc
                      have := hcur_lt D
                        (h3'.sublist.subset (List.mem_cons_of_mem d0 h))
                      omega
                rw [if_neg hne]
                omega
            omega

lemma duration_on_date_le_sum (d : Nat) (A : List ScheduledTask) :
    duration_on_date d A ≤ (A.map ScheduledTask.duration_mins).sum := by
  induction A with
  | nil => exact Nat.le_refl _
  | cons e A ih =>
    rw [duration_on_date_cons, List.map_cons, List.sum_cons]
    by_cases h : e.date = d
    · rw [if_pos h]
      omega
    · rw [if_neg h]
      omega

lemma mem_le_duration_on_date {a : ScheduledTask} {A : List ScheduledTask}
    (ha : a ∈ A) : a.duration_mins ≤ duration_on_date a.date A := by
  induction A with
  | nil => exact absurd ha (List.not_mem_nil a)
  | cons e A ih =>
    rw [duration_on_date_cons]
    rcases List.mem_cons.mp ha with rfl | ha'
    · rw [if_pos rfl]
      omega
    · have := ih ha'
      split <;> omega

lemma duration_on_date_sublist {d : Nat} {A₁ A₂ : List ScheduledTask}
    (h : List.Sublist A₁ A₂) : duration_on_date d A₁ ≤ duration_on_date d A₂ :=
  sum_le_sum_of_sublist ((h.filter _).map _)

lemma duration_on_date_append (d : Nat) (A₁ A₂ : List ScheduledTask) :
    duration_on_date d (A₁ ++ A₂) = duration_on_date d A₁ + duration_on_date d A₂ := by
  unfold duration_on_date
  rw [List.filter_append, List.map_append, List.sum_append]

/-- When some task in the list is longer than the daily capacity, the
loop inevitably runs out of dates and truncates. -/
lemma schedule_loop_oversized :
    ∀ (ts : List Task) (current avail : Nat) (rest : List Nat),
      avail ≤ daily_work_minutes →
      (∃ t ∈ ts, daily_work_minutes < t.duration_mins) →
      (schedule_loop ts current avail rest).2 = true := by
  intro ts
  induction ts with
  | nil =>
    rintro current avail rest _ ⟨t, ht, _⟩
    exact absurd ht (List.not_mem_nil t)
  | cons t ts ih =>
    rintro current avail rest havail ⟨t0, ht0, hbig⟩
    by_cases hz : t.duration_mins = 0
    · simp only [schedule_loop]
      rw [if_pos hz]
      refine ih current avail rest havail ⟨t0, ?_, hbig⟩
      rcases List.mem_cons.mp ht0 with rfl | h
      · exfalso
        rw [hz] at hbig
        omega
      · exact h
    · simp only [schedule_loop]
      rw [if_neg hz]
      rcases List.mem_cons.mp ht0 with rfl | ht0'
      · rw [advance_none hbig havail]
      · rcases hadv : advance_to_fitting_day t.duration_mins rest current avail with
          _ | ⟨d0, a2, r2⟩
        · rfl
        · dsimp only
          rcases advance_spec hadv with ⟨hfit, hcase⟩
          have ha2 : a2 ≤ daily_work_minutes := by
            rcases hcase with ⟨_, h2, _⟩ | ⟨h2, _⟩ <;> omega
          exact ih d0 (a2 - t.duration_mins) r2 (by omega) ⟨t0, ht0', hbig⟩

/-! ## The task orderer -/

lemma chars_lt_trichotomy : ∀ (a b : List Char),
    chars_lt a b = true ∨ a = b ∨ chars_lt b a = true := by
  intro a
  induction a with
  | nil =>
    intro b
    cases b with
    | nil => exact Or.inr (Or.inl rfl)
    | cons y ys => exact Or.inl rfl
  | cons x xs ih =>
    intro b
    cases b with
    | nil => exact Or.inr (Or.inr rfl)
    | cons y ys =>
      rcases lt_trichotomy x y with h | h | h
      · left
        simp [chars_lt, h]
      · subst h
        rcases ih ys with h2 | h2 | h2
        · left
          simp [chars_lt, lt_irrefl, h2]
        · exact Or.inr (Or.inl (by rw [h2]))
        · right; right
          simp [chars_lt, lt_irrefl, h2]
      · right; right
        simp [chars_lt, h]

lemma chars_lt_trans : ∀ {a b c : List Char},
    chars_lt a b = true → chars_lt b c = true → chars_lt a c = true := by
  intro a
  induction a with
  | nil =>
    intro b c hab hbc
    cases b with
    | nil => exact absurd hab (by simp [chars_lt])
    | cons y ys =>
      cases c with
      | nil => exact absurd hbc (by simp [chars_lt])
      | cons z zs => rfl
  | cons x xs ih =>
    intro b c hab hbc
    cases b with
    | nil => exact absurd hab (by simp [chars_lt])
    | cons y ys =>
      cases c with
      | nil => exact absurd hbc (by simp [chars_lt])
      | cons z zs =>
        by_cases hxy : x < y
        · by_cases hyz : y < z
          · simp [chars_lt, lt_trans hxy hyz]
          · by_cases hzy : z < y
            · simp [chars_lt, hyz, hzy] at hbc
            · have hyz' : y = z := le_antisymm (not_lt.mp hzy) (not_lt.mp hyz)
              subst hyz'
              simp [chars_lt, hxy]
        · by_cases hyx : y < x
          · simp [chars_lt, hxy, hyx] at hab
          · have hxy' : x = y := le_antisymm (not_lt.mp hyx) (not_lt.mp hxy)
            subst hxy'
            simp only [chars_lt, lt_irrefl, if_neg (lt_irrefl x), if_false] at hab
            by_cases hxz : x < z
            · simp [chars_lt, hxz]
            · by_cases hzx : z < x
              · simp [chars_lt, hxz, hzx] at hbc
              · have hxz' : x = z := le_antisymm (not_lt.mp hzx) (not_lt.mp hxz)
                subst hxz'
                simp only [chars_lt, lt_irrefl, if_neg (lt_irrefl x), if_false] at hbc ⊢
                exact ih hab hbc

lemma str_lt_trichotomy (a b : String) : str_lt a b ∨ a = b ∨ str_lt b a := by
  rcases chars_lt_trichotomy a.data b.data with h | h | h
  · exact Or.inl h
  · refine Or.inr (Or.inl ?_)
    cases a
    cases b
    exact congrArg String.mk (by simpa using h)
  · exact Or.inr (Or.inr h)

lemma str_lt_trans {a b c : String} (h1 : str_lt a b) (h2 : str_lt b c) :
    str_lt a c := chars_lt_trans h1 h2

instance : IsTotal Task task_le := ⟨by
  intro a b
  unfold task_le
  rcases str_lt_trichotomy a.system b.system with h | h | h
  · exact Or.inl (Or.inl h)
  · rcases lt_trichotomy a.interval_months b.interval_months with h2 | h2 | h2
    · exact Or.inl (Or.inr ⟨h, Or.inl h2⟩)
    · rcases Nat.le_total b.duration_mins a.duration_mins with h3 | h3
      · exact Or.inl (Or.inr ⟨h, Or.inr ⟨h2, h3⟩⟩)
      · exact Or.inr (Or.inr ⟨h.symm, Or.inr ⟨h2.symm, h3⟩⟩)
    · exact Or.inr (Or.inr ⟨h.symm, Or.inl h2⟩)
  · exact Or.inr (Or.inl h)⟩

instance : IsTrans Task task_le := ⟨by
  intro a b c hab hbc
  unfold task_le at hab hbc ⊢
  rcases hab with h1 | ⟨h1e, h1r⟩ <;> rcases hbc with h2 | ⟨h2e, h2r⟩
  · exact Or.inl (str_lt_trans h1 h2)
  · exact Or.inl (h2e ▸ h1)
  · exact Or.inl (h1e.symm ▸ h2)
  · refine Or.inr ⟨h1e.trans h2e, ?_⟩
    rcases h1r with h1i | ⟨h1ie, h1d⟩ <;> rcases h2r with h2i | ⟨h2ie, h2d⟩ <;> omega⟩

lemma sort_tasks_perm (tasks : List Task) : List.Perm (sort_tasks tasks) tasks :=
  List.perm_insertionSort task_le tasks

lemma sort_tasks_sorted (tasks : List Task) : (sort_tasks tasks).Pairwise task_le :=
  List.sorted_insertionSort task_le tasks

lemma total_work_minutes_sort (tasks : List Task) :
    total_work_minutes (sort_tasks tasks) = total_work_minutes tasks :=
  ((sort_tasks_perm tasks).map Task.duration_mins).sum_eq

/-! ## Top-level structure of `generate_task_schedule` -/

/-- With positive total work, `generate_task_schedule` takes the main
branch: a nonempty selected-date list feeding the placement loop. -/
lemma generate_eq_loop (tasks : List Task) (s : Nat)
    (h : total_work_minutes tasks ≠ 0) :
    ∃ d ds, scheduled_dates tasks s = d :: ds ∧
      generate_task_schedule tasks s =
        ⟨(schedule_loop (sort_tasks tasks) d daily_work_minutes ds).1,
          (schedule_loop (sort_tasks tasks) d daily_work_minutes ds).2⟩ := by
  have hne := scheduled_dates_ne_nil s h
  rcases hsd : scheduled_dates tasks s with _ | ⟨d, ds⟩
  · exact absurd hsd hne
  · refine ⟨d, ds, rfl, ?_⟩
    unfold generate_task_schedule
    rw [if_neg (not_or.mpr ⟨fun hnil => h (by rw [hnil]; rfl), h⟩), hsd]

/-- Per-date capacity bound for the full scheduler. -/
lemma generate_capacity_le (tasks : List Task) (s d : Nat) :
    duration_on_date d (generate_task_schedule tasks s).schedule ≤ daily_work_minutes := by
  by_cases h0 : total_work_minutes tasks = 0
  · unfold generate_task_schedule
    rw [if_pos (Or.inr h0)]
    rw [show (ScheduleResult.mk [] false).schedule = [] from rfl, duration_on_date_nil]
    exact Nat.zero_le _
  · obtain ⟨d0, ds, hsd, hgen⟩ := generate_eq_loop tasks s h0
    rw [hgen]
    have hpair : (d0 :: ds).Pairwise (· < ·) := hsd ▸ pairwise_scheduled_dates tasks s
    rcases hloop : schedule_loop (sort_tasks tasks) d0 daily_work_minutes ds with ⟨A, tr⟩
    have hspec := (schedule_loop_spec (sort_tasks tasks) d0 daily_work_minutes ds A tr
      hloop (Nat.le_refl _) hpair).2.2.1 d
    rw [ite_self] at hspec
    exact hspec

/-- Row-level layout facts for the full scheduler: every row satisfies
`finish = start + duration`, has positive duration, and starts at 16:00
of its date plus the total duration already placed on that date. -/
lemma generate_spec (tasks : List Task) (s : Nat) :
    (∀ a ∈ (generate_task_schedule tasks s).schedule,
        a.finish = a.start + a.duration_mins ∧ 0 < a.duration_mins) ∧
    (∀ i (hi : i < (generate_task_schedule tasks s).schedule.length),
        ((generate_task_schedule tasks s).schedule.get ⟨i, hi⟩).start =
          ((generate_task_schedule tasks s).schedule.get ⟨i, hi⟩).date * 1440 + 960 +
            duration_on_date ((generate_task_schedule tasks s).schedule.get ⟨i, hi⟩).date
              ((generate_task_schedule tasks s).schedule.take i)) := by
  by_cases h0 : total_work_minutes tasks = 0
  · unfold generate_task_schedule
    rw [if_pos (Or.inr h0)]
    exact ⟨fun a ha => absurd ha (List.not_mem_nil a), fun i hi => absurd hi (by simp)⟩
  · obtain ⟨d0, ds, hsd, hgen⟩ := generate_eq_loop tasks s h0
    rw [hgen]
    have hpair : (d0 :: ds).Pairwise (· < ·) := hsd ▸ pairwise_scheduled_dates tasks s
    rcases hloop : schedule_loop (sort_tasks tasks) d0 daily_work_minutes ds with ⟨A, tr⟩
    rcases schedule_loop_spec (sort_tasks tasks) d0 daily_work_minutes ds A tr
      hloop (Nat.le_refl _) hpair with ⟨_, hs2, _, hs4⟩
    refine ⟨hs2, fun i hi => ?_⟩
    have := hs4 i hi
    rw [Nat.sub_self, ite_self, Nat.zero_add] at this
    exact this

lemma duration_on_date_take_mono (d : Nat) (A : List ScheduledTask) {i j : Nat}
    (hij : i ≤ j) :
    duration_on_date d (A.take i) ≤ duration_on_date d (A.take j) :=
  duration_on_date_sublist (List.take_prefix_take_left A hij).sublist

lemma duration_on_date_take_succ {A : List ScheduledTask} {i : Nat}
    (hi : i < A.length) (d : Nat) :
    duration_on_date d (A.take (i + 1)) =
      duration_on_date d (A.take i) +
        (if (A.get ⟨i, hi⟩).date = d then (A.get ⟨i, hi⟩).duration_mins else 0) := by
  rw [List.take_succ, List.getElem?_eq_getElem hi]
  rw [show (some A[i]).toList = [A[i]] from rfl]
  rw [duration_on_date_append, duration_on_date_cons, duration_on_date_nil, Nat.add_zero]
  rfl

lemma nat_sum_zero {l : List Nat} (h : l.sum = 0) : ∀ x ∈ l, x = 0 := by
  induction l with
  | nil => exact fun x hx => absurd hx (List.not_mem_nil x)
  | cons a l ih =>
    rw [List.sum_cons] at h
    intro x hx
    rcases List.mem_cons.mp hx with rfl | hx'
    · omega
    · exact ih (by omega) x hx'

lemma filter_dur_nil : ∀ {l : List Task}, (∀ t ∈ l, t.duration_mins = 0) →
    l.filter (fun t => t.duration_mins != 0) = [] := by
  intro l
  induction l with
  | nil => exact fun _ => rfl
  | cons t ts ih =>
    intro h
    rw [List.filter_cons_of_neg (by simp [h t (List.mem_cons_self t ts)])]
    exact ih fun x hx => h x (List.mem_cons_of_mem t hx)

lemma map_getD_range (l : List Nat) :
    (List.range l.length).map (fun i => l.getD i 0) = l := by
  apply List.ext_getElem
  · simp
  · intro n h1 h2
    simp only [List.getElem_map, List.getElem_range]
    exact List.getD_eq_getElem l 0 h2

/-! ## Concrete inputs used by witnesses and counterexamples -/

def task_linac (dur : Nat) (name : String) : Task :=
  ⟨"LINAC", 6, dur, name, "12"⟩

/-- Three 200-minute tasks on one system (spec example 2). -/
def tasks_three_200 : List Task :=
  [task_linac 200 "T1", task_linac 200 "T2", task_linac 200 "T3"]

/-- Three 250-minute tasks: total 750 needs three workdays. -/
def tasks_three_250 : List Task :=
  [task_linac 250 "U1", task_linac 250 "U2", task_linac 250 "U3"]

/-- Two 100-minute tasks that share a single day. -/
def tasks_two_100 : List Task := [task_linac 100 "A1", task_linac 100 "A2"]

/-- A task longer than the 300-minute daily capacity. -/
def big_task : Task := ⟨"LINAC", 6, 400, "Big overhaul", "3"⟩

def zero_task : Task := ⟨"LINAC", 6, 0, "Zero", "4"⟩

def one_task_120 : List Task := [task_linac 120 "M1"]

/-- Modelled from the spec: the claim's index-selection rule
`round(i * (len - 1) / (n - 1))` — nearest integer, halves up — written
with exact integer arithmetic, to be compared with the code's
`linspace_int`, which truncates. -/
def linspace_round (len n : Nat) : List Nat :=
  (List.range n).map fun i => (2 * (i * (len - 1)) + (n - 1)) / (2 * (n - 1))

/-! ## Claims -/

/-- **C1** (capacity invariant): for every task list (durations are
naturals, hence non-negative) and every date, the sum of the durations of
the assignments placed on that date is at most the 300-minute daily
capacity.  This is the claim's bound with its escape clause never needed:
an oversized task is never placed at all (see C2), so the sum is ≤ 300
unconditionally, which implies the claimed disjunction. -/
theorem claim_capacity_invariant (tasks : List Task) (s d : Nat) :
    duration_on_date d (generate_task_schedule tasks s).schedule ≤ daily_work_minutes :=
  generate_capacity_le tasks s d

/-- **C2** (counterexample): a single 400-minute task — contrary to the
claim, it does *not* receive a day of its own: `duration >
time_available_today` holds even on a fresh day (400 > 300), so the
`while` loop exhausts every selected date, the warning fires, and the
task appears nowhere in the output. -/
theorem claim_oversized_counterexample :
    (generate_task_schedule [big_task] 0).schedule = [] ∧
      (generate_task_schedule [big_task] 0).truncated = true := by decide

/-- **C2** (amended): a task whose duration exceeds the daily capacity is
never placed; whenever the input contains one, the scheduler signals
truncation, and every assignment that does appear has duration ≤ 300. -/
theorem claim_oversized_never_placed (tasks : List Task) (s : Nat)
    (h : ∃ t ∈ tasks, daily_work_minutes < t.duration_mins) :
    (generate_task_schedule tasks s).truncated = true ∧
      ∀ a ∈ (generate_task_schedule tasks s).schedule,
        a.duration_mins ≤ daily_work_minutes := by
  have h0 : total_work_minutes tasks ≠ 0 := by
    rcases h with ⟨t, ht, hbig⟩
    unfold total_work_minutes
    intro hz
    have := nat_sum_zero hz _ (List.mem_map.mpr ⟨t, ht, rfl⟩)
    unfold daily_work_minutes at hbig
    omega
  obtain ⟨d0, ds, hsd, hgen⟩ := generate_eq_loop tasks s h0
  constructor
  · rw [hgen]
    show (schedule_loop (sort_tasks tasks) d0 daily_work_minutes ds).2 = true
    rcases h with ⟨t, ht, hbig⟩
    exact schedule_loop_oversized (sort_tasks tasks) d0 daily_work_minutes ds
      (Nat.le_refl _) ⟨t, ((sort_tasks_perm tasks).mem_iff).mpr ht, hbig⟩
  · intro a ha
    have h1 : a.duration_mins ≤
        duration_on_date a.date (generate_task_schedule tasks s).schedule :=
      mem_le_duration_on_date ha
    exact h1.trans (generate_capacity_le tasks s a.date)

/-- **C2** (witness): the amended theorem applied to the 400-minute task. -/
theorem claim_oversized_witness :
    (∃ t ∈ [big_task], daily_work_minutes < t.duration_mins) ∧
      (generate_task_schedule [big_task] 0).truncated = true :=
  ⟨⟨big_task, by decide, by decide⟩,
    (claim_oversized_never_placed [big_task] 0 ⟨big_task, by decide, by decide⟩).1⟩

/-- **C3** (counterexample): with three 250-minute tasks
(`workdays_needed = 3`) the code selects candidate indices `[0, 29, 59]`
(`np.linspace(..., dtype=int)` truncates `29.5` to `29`), while the
claim's `round` rule selects `[0, 30, 59]`; the resulting date lists
differ. -/
theorem claim_spread_counterexample :
    scheduled_dates tasks_three_250 0 ≠
      (linspace_round 60 (min (num_workdays_needed tasks_three_250) 60)).map
        (fun idx => (all_available_weekdays 0).getD idx 0) := by decide

/-- **C3** (amended): with `n = min(workdays_needed, 60)` the placer
selects the dates at candidate indices `⌊i * (len-1) / (n-1)⌋`
(truncation, not rounding; index 0 alone when `n = 1`, every index when
`n = len`), and the selected dates are a strictly increasing subsequence
of the candidate list. -/
theorem claim_spread_selection (tasks : List Task) (s : Nat)
    (h : 0 < num_workdays_needed tasks) :
    scheduled_dates tasks s =
        (linspace_int 60 (min (num_workdays_needed tasks) 60)).map
          (fun idx => (all_available_weekdays s).getD idx 0) ∧
      (scheduled_dates tasks s).Pairwise (· < ·) ∧
      List.Sublist (scheduled_dates tasks s) (all_available_weekdays s) ∧
      (min (num_workdays_needed tasks) 60 = 1 →
        scheduled_dates tasks s = [(all_available_weekdays s).getD 0 0]) ∧
      (min (num_workdays_needed tasks) 60 = 60 →
        scheduled_dates tasks s = all_available_weekdays s) := by
  refine ⟨scheduled_dates_eq tasks s h, pairwise_scheduled_dates tasks s,
    sublist_scheduled_dates tasks s, ?_, ?_⟩
  · intro h1
    rw [scheduled_dates_eq tasks s h, h1, linspace_int_one]
    rfl
  · intro h60
    rw [scheduled_dates_eq tasks s h, h60, linspace_int_self]
    rw [show (60 : Nat) = (all_available_weekdays s).length from
      (length_all_available_weekdays s).symm]
    exact map_getD_range _

/-- **C3** (witness): the amended theorem applied to the three-250 input. -/
theorem claim_spread_witness :
    0 < num_workdays_needed tasks_three_250 ∧
      scheduled_dates tasks_three_250 0 =
        (linspace_int 60 (min (num_workdays_needed tasks_three_250) 60)).map
          (fun idx => (all_available_weekdays 0).getD idx 0) :=
  ⟨by decide, (claim_spread_selection tasks_three_250 0 (by decide)).1⟩

/-- **C4**: the end-to-end example — three 200-minute tasks, Monday start
(day 0): two dates are selected (candidates 0 and 59, i.e. days 0 and
81), T1 lands on day 0 at 16:00, T2 on day 81 at 16:00, T3 is dropped,
and truncation is signalled. -/
theorem claim_three_200_example :
    scheduled_dates tasks_three_200 0 = [0, 81] ∧
      generate_task_schedule tasks_three_200 0 =
        ⟨[⟨0, "T1", 960, 1160, "LINAC", 200, "12"⟩,
          ⟨81, "T2", 117600, 117800, "LINAC", 200, "12"⟩], true⟩ := by decide

/-- **C5**: the candidate list consists of exactly the weekdays among the
90 consecutive days from the start date, truncated to the first 60; a
Saturday start yields the following Monday first. -/
theorem claim_calendar_window (s : Nat) :
    all_available_weekdays s =
        (((List.range 90).filter fun i => decide ((s + i) % 7 < 5)).take 60).map (s + ·) ∧
      (s % 7 = 5 → (all_available_weekdays s).head? = some (s + 2)) :=
  ⟨all_available_weekdays_eq s, head_all_available_weekdays_sat s⟩

/-- **C5** (witness): day 5 is a Saturday; the first candidate is day 7,
the following Monday. -/
theorem claim_calendar_window_witness :
    (5 : Nat) % 7 = 5 ∧ (all_available_weekdays 5).head? = some 7 :=
  ⟨rfl, by simpa using (claim_calendar_window 5).2 rfl⟩

/-- **C6** (error handling): the scheduler is a total function (this
embedding returns a `ScheduleResult` on every input — the only potential
exception in the source, `StopIteration`, is caught); an empty task list
or zero total duration yields the empty, untruncated result; and in
general the emitted rows are exactly a prefix of the ordered
non-zero-duration tasks, the whole of it when no truncation is
signalled. -/
theorem claim_error_handling (tasks : List Task) (s : Nat) :
    ((tasks = [] ∨ total_work_minutes tasks = 0) →
        generate_task_schedule tasks s = ⟨[], false⟩) ∧
      ((generate_task_schedule tasks s).schedule.map sched_proj) <+:
        (((sort_tasks tasks).filter fun t => t.duration_mins != 0).map task_proj) ∧
      ((generate_task_schedule tasks s).truncated = false →
        (generate_task_schedule tasks s).schedule.map sched_proj =
          ((sort_tasks tasks).filter fun t => t.duration_mins != 0).map task_proj) := by
  refine ⟨?_, ?_⟩
  · intro hin
    unfold generate_task_schedule
    rw [if_pos hin]
  · by_cases h0 : total_work_minutes tasks = 0
    · have hall : ∀ t ∈ tasks, t.duration_mins = 0 := by
        intro t ht
        exact nat_sum_zero h0 _ (List.mem_map.mpr ⟨t, ht, rfl⟩)
      have hfil : (sort_tasks tasks).filter (fun t => t.duration_mins != 0) = [] :=
        filter_dur_nil fun t ht => hall t (((sort_tasks_perm tasks).mem_iff).mp ht)
      have hgen0 : generate_task_schedule tasks s = ⟨[], false⟩ := by
        unfold generate_task_schedule
        rw [if_pos (Or.inr h0)]
      rw [hgen0, hfil]
      exact ⟨ List.nil_prefix, fun _ => rfl⟩
    · obtain ⟨d0, ds, hsd, hgen⟩ := generate_eq_loop tasks s h0
      rw [hgen]
      exact schedule_loop_proj (sort_tasks tasks) d0 daily_work_minutes ds

/-- **C6** (witness): the empty input returns the empty untruncated
result, and a fitting input is emitted in full. -/
theorem claim_error_handling_witness :
    generate_task_schedule [] 0 = ⟨[], false⟩ ∧
      (generate_task_schedule one_task_120 0).schedule.map sched_proj =
        ((sort_tasks one_task_120).filter fun t => t.duration_mins != 0).map task_proj :=
  ⟨(claim_error_handling [] 0).1 (Or.inl rfl),
    (claim_error_handling one_task_120 0).2.2 (by decide)⟩

/-- **C7** (within-day layout): every row has
`finish = start + duration`; every row starts at 16:00 of its date plus
the durations already placed on that date; and same-date rows have
non-overlapping `[start, finish)` intervals with strictly increasing
starts. -/
theorem claim_within_day_layout (tasks : List Task) (s : Nat) :
    (∀ a ∈ (generate_task_schedule tasks s).schedule,
        a.finish = a.start + a.duration_mins) ∧
      (∀ i (hi : i < (generate_task_schedule tasks s).schedule.length),
        ((generate_task_schedule tasks s).schedule.get ⟨i, hi⟩).start =
          ((generate_task_schedule tasks s).schedule.get ⟨i, hi⟩).date * 1440 + 960 +
            duration_on_date ((generate_task_schedule tasks s).schedule.get ⟨i, hi⟩).date
              ((generate_task_schedule tasks s).schedule.take i)) ∧
      (∀ i j (hi : i < (generate_task_schedule tasks s).schedule.length)
          (hj : j < (generate_task_schedule tasks s).schedule.length), i < j →
        ((generate_task_schedule tasks s).schedule.get ⟨i, hi⟩).date =
          ((generate_task_schedule tasks s).schedule.get ⟨j, hj⟩).date →
        ((generate_task_schedule tasks s).schedule.get ⟨i, hi⟩).finish ≤
            ((generate_task_schedule tasks s).schedule.get ⟨j, hj⟩).start ∧
          ((generate_task_schedule tasks s).schedule.get ⟨i, hi⟩).start <
            ((generate_task_schedule tasks s).schedule.get ⟨j, hj⟩).start) := by
  obtain ⟨hrow, hstart⟩ := generate_spec tasks s
  refine ⟨fun a ha => (hrow a ha).1, hstart, ?_⟩
  intro i j hi hj hij hdate
  have hsi := hstart i hi
  have hsj := hstart j hj
  have hfin := (hrow _ (List.get_mem _ i hi)).1
  have hpos := (hrow _ (List.get_mem _ i hi)).2
  have hsucc := duration_on_date_take_succ hi
    ((generate_task_schedule tasks s).schedule.get ⟨i, hi⟩).date
  rw [if_pos rfl] at hsucc
  have hmono := duration_on_date_take_mono
    ((generate_task_schedule tasks s).schedule.get ⟨i, hi⟩).date
    (generate_task_schedule tasks s).schedule (show i + 1 ≤ j from hij)
  rw [hdate] at hsi hsucc hmono
  omega

/-- **C7** (witness): two 100-minute tasks on the same day — the first
ends (17:40) exactly when the second starts. -/
theorem claim_within_day_layout_witness :
    ((generate_task_schedule tasks_two_100 0).schedule.get ⟨0, by decide⟩).finish ≤
        ((generate_task_schedule tasks_two_100 0).schedule.get ⟨1, by decide⟩).start ∧
      ((generate_task_schedule tasks_two_100 0).schedule.get ⟨0, by decide⟩).start <
        ((generate_task_schedule tasks_two_100 0).schedule.get ⟨1, by decide⟩).start :=
  (claim_within_day_layout tasks_two_100 0).2.2 0 1 (by decide) (by decide)
    (by decide) (by decide)

/-- **C8** (task orderer): the placement order fed to the loop is a
permutation of the input that is sorted by `system` ascending, then
`interval_months` ascending, then `duration_mins` descending (the
`task_le` comparison), and the empty input sorts to the empty list. -/
theorem claim_task_ordering (tasks : List Task) :
    List.Perm (sort_tasks tasks) tasks ∧
      (sort_tasks tasks).Pairwise task_le ∧
      sort_tasks [] = [] :=
  ⟨sort_tasks_perm tasks, sort_tasks_sorted tasks, rfl⟩

/-- **C9** (zero-duration exclusion): every emitted row has positive
duration (so zero-duration tasks never appear and consume no capacity),
and an input of only zero-duration tasks yields the empty, untruncated
result. -/
theorem claim_zero_duration (tasks : List Task) (s : Nat) :
    (∀ a ∈ (generate_task_schedule tasks s).schedule, 0 < a.duration_mins) ∧
      ((∀ t ∈ tasks, t.duration_mins = 0) →
        generate_task_schedule tasks s = ⟨[], false⟩) := by
  refine ⟨fun a ha => ((generate_spec tasks s).1 a ha).2, fun hz => ?_⟩
  have h0 : total_work_minutes tasks = 0 := by
    unfold total_work_minutes
    apply List.sum_eq_zero
    intro x hx
    obtain ⟨t, ht, rfl⟩ := List.mem_map.mp hx
    exact hz t ht
  unfold generate_task_schedule
  rw [if_pos (Or.inr h0)]

/-- **C9** (witness): a single zero-duration task. -/
theorem claim_zero_duration_witness :
    (∀ t ∈ [zero_task], t.duration_mins = 0) ∧
      generate_task_schedule [zero_task] 0 = ⟨[], false⟩ :=
  ⟨by decide, (claim_zero_duration [zero_task] 0).2 (by decide)⟩

/-- **C10** (implicit): any 90 consecutive calendar days contain at least
60 weekdays, so the candidate list always has exactly 60 entries and the
empty-selected-dates branch is unreachable whenever total duration is
positive. -/
theorem claim_candidate_window_full (tasks : List Task) (s : Nat) :
    (all_available_weekdays s).length = 60 ∧
      (total_work_minutes tasks ≠ 0 → scheduled_dates tasks s ≠ []) :=
  ⟨length_all_available_weekdays s, fun h => scheduled_dates_ne_nil s h⟩

/-- **C10** (witness). -/
theorem claim_candidate_window_full_witness :
    total_work_minutes one_task_120 ≠ 0 ∧ scheduled_dates one_task_120 0 ≠ [] :=
  ⟨by decide, (claim_candidate_window_full one_task_120 0).2 (by decide)⟩

end PM
